import Mathlib

/-!
Verification of the queryIRSA metadata mirroring system.

The repository ships two demonstration notebooks (`build_database.ipynb` and
a query notebook); the library code they call (`queryIRSA.metadata.metaDB`,
`queryIRSA.utils.time.nid_to_fits`) is not part of the source tree.  The
definitions below therefore embed the system as the specification describes
it, anchored on the concrete behaviour recorded in the notebooks' outputs
(night-id 498 corresponding to 2018-05-14, the duplicate-insert warning,
the logged default query bounds 2016-01-01 / 2026-01-01, the 7-night
chunking, and so on).

Timestamps are modelled as integer seconds since the Modified Julian Date
origin (midnight 1858-11-17); calendar dates as (year, month, day) triples.
-/

namespace QueryIRSA

/-! ## Calendar arithmetic

Gregorian calendar conversions, used to tie the integer night identifiers
and default query bounds to the calendar dates appearing in the notebooks.
-/

/-- Number of days from the civil date `(y, m, d)` to 1970-01-01
(negative for earlier dates); standard Gregorian-calendar day count. -/
def daysFromCivil (y m d : Int) : Int :=
  let y2 : Int := if m ≤ 2 then y - 1 else y
  let era : Int := y2.fdiv 400
  let yoe : Int := y2 - era * 400
  let doy : Int := (153 * (if m > 2 then m - 3 else m + 9) + 2).fdiv 5 + d - 1
  let doe : Int := yoe * 365 + yoe.fdiv 4 - yoe.fdiv 100 + doy
  era * 146097 + doe - 719468

/-- Inverse calendar conversion: day count since 1970-01-01 to `(y, m, d)`. -/
def civilFromDays (z0 : Int) : Int × Int × Int :=
  let z : Int := z0 + 719468
  let era : Int := z.fdiv 146097
  let doe : Int := z - era * 146097
  let yoe : Int := (doe - doe.fdiv 1460 + doe.fdiv 36524 - doe.fdiv 146096).fdiv 365
  let y : Int := yoe + era * 400
  let doy : Int := doe - (365 * yoe + yoe.fdiv 4 - yoe.fdiv 100)
  let mp : Int := (5 * doy + 2).fdiv 153
  let d : Int := doy - (153 * mp + 2).fdiv 5 + 1
  let m : Int := if mp < 10 then mp + 3 else mp - 9
  (if m ≤ 2 then y + 1 else y, m, d)

/-- Modified Julian Date of the civil date `(y, m, d)` (MJD 0 = 1858-11-17). -/
def mjdOfDate (y m d : Int) : Int := daysFromCivil y m d + 40587

/-- Civil date of a Modified Julian Date. -/
def dateOfMJD (mjd : Int) : Int × Int × Int := civilFromDays (mjd - 40587)

/-! ## NightIndex

Modelled from the spec: pure bidirectional mapping between calendar time
and the integer night identifier.  The notebook documents the night ID as
"an integer counting nights from 2017-01-01 onwards", so night `n` starts
at midnight of the day `n` nights after 2017-01-01.  A timestamp is an
integer count of seconds since MJD 0.
-/

/-- Seconds per night (one civil day). -/
def secondsPerNight : Int := 86400

/-- MJD of the night-ID epoch, 2017-01-01 (night ID 0). -/
def nightEpochMJD : Int := mjdOfDate 2017 1 1

/-- Modelled from the spec: `dateToNight(timestamp) -> NightID`, the
deterministic integer night-count since the 2017-01-01 epoch (floor of the
day containing the timestamp). -/
def dateToNight (t : Int) : Int := t.fdiv secondsPerNight - nightEpochMJD

/-- Modelled from the spec: `nightToDate(NightID) -> timestamp`, the
timestamp of the night's boundary (midnight starting night `n`). -/
def nightToDate (n : Int) : Int := (nightEpochMJD + n) * secondsPerNight

/-- Modelled from the spec: `queryIRSA.utils.time.nid_to_fits`, which
renders a night ID as a human-readable civil date (the notebook records
`nid_to_fits(498) = 2018-05-14`). -/
def nid_to_fits (n : Int) : Int × Int × Int := dateOfMJD (nightEpochMJD + n)

/-! ## Default time bounds of position queries

The implementation of `metaDB.querypos` is not in the source tree; the query
notebook records its behaviour: a query with `time=['2018-07-11', None]`
is logged as "data taken between 2018-07-11 (JD 2458310.5) and 2026-01-01
(JD 2461041.5)", and `time=[None, '2018-07-11']` as "between 2016-01-01
(JD 2457388.5) and 2018-07-11".  The omitted bounds therefore resolve to
the fixed dates below (stored here as seconds since MJD 0; JD 2457388.5 is
MJD 57388 and JD 2461041.5 is MJD 61041).
-/

/-- Default lower time bound of `querypos`: the logged JD 2457388.5, MJD 57388. -/
def queryposDefaultStart : Int := 57388 * secondsPerNight

/-- Default upper time bound of `querypos`: the logged JD 2461041.5, MJD 61041. -/
def queryposDefaultEnd : Int := 61041 * secondsPerNight

/-- Modelled from the spec: resolution of `metaDB.querypos`'s optional time
window `[lower, upper]`; an absent bound takes the corresponding fixed
default recorded in the notebook's logs. -/
def querypos_bounds (time : Option Int × Option Int) : Int × Int :=
  (time.1.getD queryposDefaultStart, time.2.getD queryposDefaultEnd)

/-- The bound resolution that claim C8 describes: an absent lower bound
becomes the beginning of the archive and an absent upper bound becomes the
current time of the call. -/
def querypos_bounds_claim (now : Int) (time : Option Int × Option Int) : Int × Int :=
  (time.1.getD queryposDefaultStart, time.2.getD now)

end QueryIRSA

namespace QueryIRSA

/-- C4: `dateToNight` and `nightToDate` are mutually inverse: for every
integer night ID `n`, `dateToNight (nightToDate n) = n`, and for every
timestamp `t`, `nightToDate (dateToNight t)` is exactly the night boundary
of `t`: the largest multiple of a night that does not exceed `t`. -/
theorem night_index_bijection :
    (∀ n : Int, dateToNight (nightToDate n) = n) ∧
    (∀ t : Int, nightToDate (dateToNight t) = secondsPerNight * (t.fdiv secondsPerNight) ∧
      nightToDate (dateToNight t) ≤ t ∧
      t < nightToDate (dateToNight t) + secondsPerNight) := by
  have hpos : (0 : Int) < secondsPerNight := by decide
  constructor
  · intro n
    unfold dateToNight nightToDate
    rw [Int.mul_fdiv_cancel _ (by decide : secondsPerNight ≠ 0)]
    ring
  · intro t
    have hb : nightToDate (dateToNight t) = secondsPerNight * (t.fdiv secondsPerNight) := by
      unfold dateToNight nightToDate
      ring
    have hsum : secondsPerNight * (t.fdiv secondsPerNight) + t.fmod secondsPerNight = t :=
      Int.fdiv_add_fmod t secondsPerNight
    have h0 : 0 ≤ t.fmod secondsPerNight := Int.fmod_nonneg' t hpos
    have h1 : t.fmod secondsPerNight < secondsPerNight := Int.fmod_lt_of_pos t hpos
    refine ⟨hb, ?_, ?_⟩
    · rw [hb]; linarith
    · rw [hb]; linarith

/-- C10: the NightID epoch is fixed at 2017-01-01: night ID 0 falls on
2017-01-01, `nid_to_fits 498` is 2018-05-14 as the notebook records, and
`nightToDate 0` is the midnight timestamp of 2017-01-01. -/
theorem night_epoch_2017 :
    nid_to_fits 0 = (2017, 1, 1) ∧
    nid_to_fits 498 = (2018, 5, 14) ∧
    nightToDate 0 = mjdOfDate 2017 1 1 * secondsPerNight := by
  refine ⟨by decide, by decide, ?_⟩
  unfold nightToDate nightEpochMJD
  ring

/-- C8 counterexample: the claim says an absent upper bound becomes the
current time of the call; at a call made at midnight 2018-07-11 (the era of
the recorded notebook run) the code's resolved upper bound, the fixed date
2026-01-01, differs from the claimed one. -/
theorem querypos_default_not_call_time :
    querypos_bounds (none, none) ≠
      querypos_bounds_claim (mjdOfDate 2018 7 11 * secondsPerNight) (none, none) := by
  decide

/-- C8 amended: a missing or partially open time window resolves to fixed
calendar dates, independent of call time: an absent lower bound becomes
2016-01-01 and an absent upper bound becomes 2026-01-01; explicit bounds
pass through unchanged. -/
theorem querypos_default_bounds (a b : Int) :
    querypos_bounds (none, none) =
      (mjdOfDate 2016 1 1 * secondsPerNight, mjdOfDate 2026 1 1 * secondsPerNight) ∧
    querypos_bounds (some a, none) = (a, mjdOfDate 2026 1 1 * secondsPerNight) ∧
    querypos_bounds (none, some b) = (mjdOfDate 2016 1 1 * secondsPerNight, b) ∧
    querypos_bounds (some a, some b) = (a, b) := by
  refine ⟨by decide, ?_, ?_, rfl⟩
  · show (a, queryposDefaultEnd) = _
    have : queryposDefaultEnd = mjdOfDate 2026 1 1 * secondsPerNight := by decide
    rw [this]
  · show (queryposDefaultStart, b) = _
    have : queryposDefaultStart = mjdOfDate 2016 1 1 * secondsPerNight := by decide
    rw [this]

/-! ## RangePartitioner

Modelled from the spec: splits an inclusive night-ID range `[a, b]` into
ordered chunks of `c` nights (`build_database` uses 7-night chunks); each
chunk is an inclusive `(start, end)` pair, the last chunk clipped to `b`.
-/

/-- Modelled from the spec: `partition(range, chunkSize)` producing the
ordered chunk sequence over the inclusive night range `[a, b]`. -/
def partition (a b c : Nat) : List (Nat × Nat) :=
  if h : c = 0 ∨ b < a then []
  else (a, min (a + c - 1) b) :: partition (a + c) b c
termination_by b + 1 - a
decreasing_by
  push_neg at h
  omega

theorem partition_nil (a b c : Nat) (h : c = 0 ∨ b < a) : partition a b c = [] := by
  rw [partition]
  simp [h]

theorem partition_cons (a b c : Nat) (hc : 0 < c) (hab : a ≤ b) :
    partition a b c = (a, min (a + c - 1) b) :: partition (a + c) b c := by
  rw [partition]
  rw [dif_neg]
  omega

theorem partition_length (a b c : Nat) (hc : 0 < c) (hab : a ≤ b) :
    (partition a b c).length = (b + 1 - a + c - 1) / c := by
  induction a, b, c using partition.induct with
  | case1 a b c h => omega
  | case2 a b c h ih =>
    rw [partition_cons a b c hc hab, List.length_cons]
    by_cases hend : a + c ≤ b
    · rw [ih hc hend]
      have h1 : b + 1 - a + c - 1 = (b + 1 - (a + c) + c - 1) + c := by omega
      rw [h1, Nat.add_div_right _ hc]
    · rw [partition_nil (a + c) b c (by omega), List.length_nil]
      have h1 : (b + 1 - a + c - 1) / c = 1 := Nat.div_eq_of_lt_le (by omega) (by omega)
      omega

theorem partition_chain (a b c : Nat) :
    List.Chain' (fun p q => p.2 + 1 = q.1) (partition a b c) := by
  induction a, b, c using partition.induct with
  | case1 a b c h => rw [partition_nil a b c h]; exact List.chain'_nil
  | case2 a b c h ih =>
    rw [partition_cons a b c (by omega) (by omega)]
    rw [List.chain'_cons']
    refine ⟨?_, ih⟩
    intro q hq
    by_cases hend : a + c ≤ b
    · rw [partition_cons (a + c) b c (by omega) hend, List.head?_cons] at hq
      simp only [Option.mem_def, Option.some.injEq] at hq
      subst hq
      simp only []
      omega
    · rw [partition_nil (a + c) b c (by omega)] at hq
      simp at hq

theorem partition_last (a b c : Nat) (hc : 0 < c) (hab : a ≤ b) :
    ((partition a b c).getLast?).map Prod.snd = some b := by
  induction a, b, c using partition.induct with
  | case1 a b c h => omega
  | case2 a b c h ih =>
    rw [partition_cons a b c hc hab]
    by_cases hend : a + c ≤ b
    · rw [partition_cons (a + c) b c hc hend, List.getLast?_cons_cons,
        ← partition_cons (a + c) b c hc hend]
      exact ih hc hend
    · rw [partition_nil (a + c) b c (by omega)]
      have : min (a + c - 1) b = b := by omega
      rw [this]
      rfl

theorem partition_bounds (a b c : Nat) :
    ∀ p ∈ partition a b c, a ≤ p.1 ∧ p.1 ≤ p.2 ∧ p.2 ≤ b := by
  induction a, b, c using partition.induct with
  | case1 a b c h => rw [partition_nil a b c h]; intro p hp; simp at hp
  | case2 a b c h ih =>
    rw [partition_cons a b c (by omega) (by omega)]
    intro p hp
    rcases List.mem_cons.mp hp with h1 | h1
    · subst h1
      have h2 : a ≤ min (a + c - 1) b := by omega
      have h3 : min (a + c - 1) b ≤ b := by omega
      exact ⟨le_refl a, h2, h3⟩
    · have := ih p h1
      omega

theorem partition_cover (a b c : Nat) (hc : 0 < c) :
    ∀ n : Nat, (∃ p ∈ partition a b c, p.1 ≤ n ∧ n ≤ p.2) ↔ (a ≤ n ∧ n ≤ b) := by
  induction a, b, c using partition.induct with
  | case1 a b c h =>
    intro n
    rw [partition_nil a b c h]
    constructor
    · rintro ⟨p, hp, -⟩
      simp at hp
    · intro hn
      exact absurd hn (by omega)
  | case2 a b c h ih =>
    intro n
    rw [partition_cons a b c hc (by omega)]
    constructor
    · rintro ⟨p, hp, h1, h2⟩
      rcases List.mem_cons.mp hp with he | he
      · subst he
        simp at h2
        omega
      · have := ((ih hc n).mp ⟨p, he, h1, h2⟩)
        omega
    · rintro ⟨h1, h2⟩
      by_cases hn : n ≤ min (a + c - 1) b
      · exact ⟨(a, min (a + c - 1) b), List.mem_cons_self _ _, h1, hn⟩
      · have := (ih hc n).mpr (by omega)
        rcases this with ⟨p, hp, hp1, hp2⟩
        exact ⟨p, List.mem_cons_of_mem _ hp, hp1, hp2⟩

theorem partition_example :
    partition 490 520 7 = [(490, 496), (497, 503), (504, 510), (511, 517), (518, 520)] := by
  rw [partition_cons 490 520 7 (by norm_num) (by norm_num)]
  rw [partition_cons 497 520 7 (by norm_num) (by norm_num)]
  rw [partition_cons 504 520 7 (by norm_num) (by norm_num)]
  rw [partition_cons 511 520 7 (by norm_num) (by norm_num)]
  rw [partition_cons 518 520 7 (by norm_num) (by norm_num)]
  rw [partition_nil 525 520 7 (by norm_num)]
  norm_num

/-- C2: over the inclusive night range `[a, b]` with positive chunk size
`c`, `partition` yields exactly the ceiling of span over chunk size many
chunks; each chunk's end is the next chunk's start minus one; the final
chunk ends exactly at `b`; a night is covered by some chunk exactly when it
lies in `[a, b]` (full coverage, no gaps, nothing outside the bound); every
chunk lies inside `[a, b]`; and chunk size 7 over `[490, 520]` gives the
five chunks the spec lists. -/
theorem range_partitioner_correct (a b c : Nat) (hc : 0 < c) (hab : a ≤ b) :
    (partition a b c).length = (b + 1 - a + c - 1) / c ∧
    List.Chain' (fun p q => p.2 + 1 = q.1) (partition a b c) ∧
    ((partition a b c).getLast?).map Prod.snd = some b ∧
    (∀ n : Nat, (∃ p ∈ partition a b c, p.1 ≤ n ∧ n ≤ p.2) ↔ (a ≤ n ∧ n ≤ b)) ∧
    (∀ p ∈ partition a b c, a ≤ p.1 ∧ p.1 ≤ p.2 ∧ p.2 ≤ b) ∧
    partition 490 520 7 = [(490, 496), (497, 503), (504, 510), (511, 517), (518, 520)] :=
  ⟨partition_length a b c hc hab, partition_chain a b c, partition_last a b c hc hab,
   partition_cover a b c hc, partition_bounds a b c, partition_example⟩

/-- Witness for C2 at the spec's own example input: chunk size 7 over the
night range `[490, 520]`. -/
theorem range_partitioner_correct_witness :
    0 < 7 ∧ 490 ≤ 520 ∧
    ((partition 490 520 7).length = (520 + 1 - 490 + 7 - 1) / 7 ∧
     List.Chain' (fun p q => p.2 + 1 = q.1) (partition 490 520 7) ∧
     ((partition 490 520 7).getLast?).map Prod.snd = some 520 ∧
     (∀ n : Nat, (∃ p ∈ partition 490 520 7, p.1 ≤ n ∧ n ≤ p.2) ↔ (490 ≤ n ∧ n ≤ 520)) ∧
     (∀ p ∈ partition 490 520 7, 490 ≤ p.1 ∧ p.1 ≤ p.2 ∧ p.2 ≤ 520) ∧
     partition 490 520 7 = [(490, 496), (497, 503), (504, 510), (511, 517), (518, 520)]) :=
  ⟨by decide, by decide, range_partitioner_correct 490 520 7 (by decide) (by decide)⟩

/-! ## RecordStore

Modelled from the spec: a collection of Records with a natural-key
uniqueness invariant and an idempotent upsert.  A Record carries the
natural key, timestamp and a rectangular sky footprint; the store is the
ordered list of Records inserted so far.  `upsertBatch` is the
insert-if-absent operation: the notebook's repeat-ingest cell shows a
duplicate batch producing only the warning "no new document to be inserted
in collection", never an error.
-/


structure Record where
  naturalKey : Nat
  timestamp : Int
  raMin : Int
  raMax : Int
  decMin : Int
  decMax : Int
deriving DecidableEq

def keysOf (st : List Record) : List Nat := st.map Record.naturalKey

def hasKey (st : List Record) (k : Nat) : Bool := st.any (fun r => r.naturalKey == k)

structure UpsertResult where
  store : List Record
  inserted : Nat
  skipped : Nat
deriving DecidableEq

def upsertBatch (st : List Record) : List Record → UpsertResult
  | [] => { store := st, inserted := 0, skipped := 0 }
  | r :: rs =>
    if hasKey st r.naturalKey then
      let res := upsertBatch st rs
      { res with skipped := res.skipped + 1 }
    else
      let res := upsertBatch (st ++ [r]) rs
      { res with inserted := res.inserted + 1 }

theorem hasKey_iff_mem_keys (st : List Record) (k : Nat) :
    hasKey st k = true ↔ k ∈ keysOf st := by
  unfold hasKey keysOf
  rw [List.any_eq_true]
  constructor
  · rintro ⟨r, hr, hb⟩
    exact List.mem_map.mpr ⟨r, hr, eq_of_beq hb⟩
  · rintro hm
    rcases List.mem_map.mp hm with ⟨r, hr, he⟩
    exact ⟨r, hr, beq_iff_eq.mpr he⟩

theorem hasKey_append_single (st : List Record) (r : Record) (k : Nat) :
    hasKey (st ++ [r]) k = (hasKey st k || (r.naturalKey == k)) := by
  simp [hasKey, List.any_append]

theorem upsert_count (st : List Record) (bs : List Record) :
    (upsertBatch st bs).inserted + (upsertBatch st bs).skipped = bs.length := by
  induction bs generalizing st with
  | nil => simp [upsertBatch]
  | cons r rs ih =>
    by_cases h : hasKey st r.naturalKey
    · simp only [upsertBatch, if_pos h]
      have := ih st
      simp only [List.length_cons]
      omega
    · simp only [upsertBatch, if_neg h]
      have := ih (st ++ [r])
      simp only [List.length_cons]
      omega

theorem upsert_store_hasKey (st : List Record) (bs : List Record) (k : Nat) :
    hasKey (upsertBatch st bs).store k =
      (hasKey st k || bs.any (fun r => r.naturalKey == k)) := by
  induction bs generalizing st with
  | nil => simp [upsertBatch]
  | cons r rs ih =>
    by_cases h : hasKey st r.naturalKey
    · simp only [upsertBatch, if_pos h, ih st, List.any_cons]
      rcases hk : (r.naturalKey == k) with _ | _
      · simp
      · have : hasKey st k = true := by
          rw [eq_of_beq hk] at h
          exact h
        simp [this]
    · simp only [upsertBatch, if_neg h, ih (st ++ [r]), hasKey_append_single, List.any_cons]
      cases hasKey st k <;> cases (r.naturalKey == k) <;> simp

theorem upsert_all_present (st : List Record) (bs : List Record) :
    ∀ r ∈ bs, hasKey (upsertBatch st bs).store r.naturalKey = true := by
  intro r hr
  rw [upsert_store_hasKey]
  have : bs.any (fun s => s.naturalKey == r.naturalKey) = true :=
    List.any_eq_true.mpr ⟨r, hr, by simp⟩
  simp [this]

theorem upsert_noop (st : List Record) (bs : List Record)
    (h : ∀ r ∈ bs, hasKey st r.naturalKey = true) :
    upsertBatch st bs = { store := st, inserted := 0, skipped := bs.length } := by
  induction bs with
  | nil => simp [upsertBatch]
  | cons r rs ih =>
    have hr : hasKey st r.naturalKey = true := h r (List.mem_cons_self _ _)
    simp only [upsertBatch, if_pos hr]
    rw [ih (fun s hs => h s (List.mem_cons_of_mem _ hs))]
    simp

theorem upsert_store_length (st : List Record) (bs : List Record) :
    (upsertBatch st bs).store.length = st.length + (upsertBatch st bs).inserted := by
  induction bs generalizing st with
  | nil => simp [upsertBatch]
  | cons r rs ih =>
    by_cases h : hasKey st r.naturalKey
    · simp only [upsertBatch, if_pos h]
      exact ih st
    · simp only [upsertBatch, if_neg h]
      have := ih (st ++ [r])
      simp only [List.length_append, List.length_singleton] at this
      simp only [this]
      omega

theorem upsert_nodup (st : List Record) (bs : List Record)
    (h : (keysOf st).Nodup) : (keysOf (upsertBatch st bs).store).Nodup := by
  induction bs generalizing st with
  | nil => simpa [upsertBatch]
  | cons r rs ih =>
    by_cases hk : hasKey st r.naturalKey
    · simp only [upsertBatch, if_pos hk]
      exact ih st h
    · simp only [upsertBatch, if_neg hk]
      apply ih (st ++ [r])
      have hnotin : r.naturalKey ∉ keysOf st := by
        rw [← hasKey_iff_mem_keys]
        simp [hk]
      simp only [keysOf, List.map_append, List.map_singleton]
      rw [List.nodup_append]
      refine ⟨h, List.nodup_singleton _, ?_⟩
      intro k hk1 hk2
      simp only [List.mem_singleton] at hk2
      subst hk2
      exact hnotin hk1

theorem hasKey_append_irrel (st : List Record) (r s : Record)
    (hne : r.naturalKey ≠ s.naturalKey) :
    hasKey (st ++ [r]) s.naturalKey = hasKey st s.naturalKey := by
  rw [hasKey_append_single]
  have : (r.naturalKey == s.naturalKey) = false := by
    rw [beq_eq_false_iff_ne]
    exact hne
  rw [this]
  simp

theorem upsert_characterization (st bs : List Record) (hnd : (keysOf bs).Nodup) :
    (upsertBatch st bs).store = st ++ bs.filter (fun r => !hasKey st r.naturalKey) ∧
    (upsertBatch st bs).inserted = (bs.filter (fun r => !hasKey st r.naturalKey)).length ∧
    (upsertBatch st bs).skipped = (bs.filter (fun r => hasKey st r.naturalKey)).length := by
  induction bs generalizing st with
  | nil => simp [upsertBatch]
  | cons r rs ih =>
    have hnd2 : (keysOf rs).Nodup := by
      simp only [keysOf, List.map_cons, List.nodup_cons] at hnd
      exact hnd.2
    have hnotin : r.naturalKey ∉ keysOf rs := by
      simp only [keysOf, List.map_cons, List.nodup_cons] at hnd
      exact hnd.1
    have hcongrNeg : rs.filter (fun s => !hasKey (st ++ [r]) s.naturalKey) =
        rs.filter (fun s => !hasKey st s.naturalKey) := by
      apply List.filter_congr
      intro s hs
      have hne : r.naturalKey ≠ s.naturalKey := by
        intro he
        exact hnotin (he ▸ List.mem_map.mpr ⟨s, hs, rfl⟩)
      rw [hasKey_append_irrel st r s hne]
    have hcongrPos : rs.filter (fun s => hasKey (st ++ [r]) s.naturalKey) =
        rs.filter (fun s => hasKey st s.naturalKey) := by
      apply List.filter_congr
      intro s hs
      have hne : r.naturalKey ≠ s.naturalKey := by
        intro he
        exact hnotin (he ▸ List.mem_map.mpr ⟨s, hs, rfl⟩)
      rw [hasKey_append_irrel st r s hne]
    by_cases h : hasKey st r.naturalKey
    · simp only [upsertBatch, if_pos h]
      rcases ih st hnd2 with ⟨e1, e2, e3⟩
      refine ⟨?_, ?_, ?_⟩
      · rw [List.filter_cons_of_neg (by simp [h])]
        exact e1
      · rw [List.filter_cons_of_neg (by simp [h])]
        exact e2
      · rw [List.filter_cons_of_pos (by simp [h])]
        simp only [List.length_cons]
        omega
    · simp only [upsertBatch, if_neg h]
      rcases ih (st ++ [r]) hnd2 with ⟨e1, e2, e3⟩
      rw [hcongrNeg] at e1 e2
      rw [hcongrPos] at e3
      refine ⟨?_, ?_, ?_⟩
      · rw [List.filter_cons_of_pos (by simp [h])]
        rw [e1, List.append_assoc]
        rfl
      · rw [List.filter_cons_of_pos (by simp [h])]
        simp only [List.length_cons]
        omega
      · rw [List.filter_cons_of_neg (by simp [h])]
        exact e3

theorem filter_key_of_not_has (st : List Record) (k : Nat) (h : hasKey st k = false) :
    st.filter (fun s => s.naturalKey == k) = [] := by
  rw [List.filter_eq_nil_iff]
  intro s hs hb
  have : hasKey st k = true := List.any_eq_true.mpr ⟨s, hs, hb⟩
  rw [this] at h
  cases h

theorem count_key_one (st : List Record) (k : Nat)
    (hnd : (keysOf st).Nodup) (hk : hasKey st k = true) :
    (st.filter (fun s => s.naturalKey == k)).length = 1 := by
  induction st with
  | nil => simp [hasKey] at hk
  | cons r rs ih =>
    have hnd2 : (keysOf rs).Nodup := by
      simp only [keysOf, List.map_cons, List.nodup_cons] at hnd
      exact hnd.2
    have hnotin : r.naturalKey ∉ keysOf rs := by
      simp only [keysOf, List.map_cons, List.nodup_cons] at hnd
      exact hnd.1
    by_cases he : r.naturalKey = k
    · have hnone : rs.filter (fun s => s.naturalKey == k) = [] := by
        apply filter_key_of_not_has
        rcases hh : hasKey rs k with _ | _
        · rfl
        · exact absurd ((hasKey_iff_mem_keys rs k).mp hh) (he ▸ hnotin)
      rw [List.filter_cons_of_pos (by simp [he])]
      rw [hnone]
      rfl
    · have hk2 : hasKey rs k = true := by
        simp only [hasKey, List.any_cons] at hk
        rcases (Bool.or_eq_true _ _).mp hk with hh | hh
        · exact absurd (eq_of_beq hh) he
        · exact hh
      rw [List.filter_cons_of_neg (by simp [he])]
      exact ih hnd2 hk2

/-- Modelled from the spec: `metaDB.insert_for_nid`, which fetches the
remote batch for night `n` and upserts it into the collection.  The remote
archive is immutable once published, so the fetch is a deterministic
function of the night. -/
def insert_for_nid (fetch : Int → List Record) (st : List Record) (n : Int) : UpsertResult :=
  upsertBatch st (fetch n)

/-- C6: `upsertBatch` inserts exactly the records whose natural key is
absent from the store, counts exactly the present-key records as skipped,
and accounts for every record of the batch (`inserted + skipped =
batch.length`) — duplicates are a silent counted outcome, never a failure. -/
theorem upsert_batch_spec (st batch : List Record) (hnd : (keysOf batch).Nodup) :
    (upsertBatch st batch).store = st ++ batch.filter (fun r => !hasKey st r.naturalKey) ∧
    (upsertBatch st batch).inserted = (batch.filter (fun r => !hasKey st r.naturalKey)).length ∧
    (upsertBatch st batch).skipped = (batch.filter (fun r => hasKey st r.naturalKey)).length ∧
    (upsertBatch st batch).inserted + (upsertBatch st batch).skipped = batch.length :=
  ⟨(upsert_characterization st batch hnd).1, (upsert_characterization st batch hnd).2.1,
   (upsert_characterization st batch hnd).2.2, upsert_count st batch⟩

/-- A science record used as concrete witness data. -/
def recA : Record :=
  { naturalKey := 1, timestamp := 100, raMin := 0, raMax := 10, decMin := 0, decMax := 10 }

/-- A second science record with a distinct natural key. -/
def recB : Record :=
  { naturalKey := 2, timestamp := 200, raMin := 20, raMax := 30, decMin := 0, decMax := 10 }

/-- Witness for C6: upserting the batch `[recA, recB]` into the store
`[recA]` skips `recA` and inserts `recB`. -/
theorem upsert_batch_spec_witness :
    (keysOf [recA, recB]).Nodup ∧
    ((upsertBatch [recA] [recA, recB]).store =
        [recA] ++ [recA, recB].filter (fun r => !hasKey [recA] r.naturalKey) ∧
     (upsertBatch [recA] [recA, recB]).inserted =
        ([recA, recB].filter (fun r => !hasKey [recA] r.naturalKey)).length ∧
     (upsertBatch [recA] [recA, recB]).skipped =
        ([recA, recB].filter (fun r => hasKey [recA] r.naturalKey)).length ∧
     (upsertBatch [recA] [recA, recB]).inserted + (upsertBatch [recA] [recA, recB]).skipped =
        [recA, recB].length) :=
  ⟨by decide, upsert_batch_spec [recA] [recA, recB] (by decide)⟩

/-- C3: natural-key uniqueness is an invariant: upserting any batch into a
store with pairwise-distinct keys leaves the keys pairwise distinct; after
ingesting two chunk batches that both contain the same record (inclusive
boundary overlap), exactly one stored Record carries that natural key; and
a single-record upsert either leaves the store untouched or appends one new
record. -/
theorem natural_key_uniqueness (st b1 b2 : List Record) (r : Record)
    (hnd : (keysOf st).Nodup) (h1 : r ∈ b1) (h2 : r ∈ b2) :
    (keysOf (upsertBatch st b1).store).Nodup ∧
    (keysOf (upsertBatch (upsertBatch st b1).store b2).store).Nodup ∧
    ((upsertBatch (upsertBatch st b1).store b2).store.filter
        (fun s => s.naturalKey == r.naturalKey)).length = 1 ∧
    (∀ s : Record, upsertBatch st [s] = { store := st, inserted := 0, skipped := 1 } ∨
      upsertBatch st [s] = { store := st ++ [s], inserted := 1, skipped := 0 }) := by
  have n1 := upsert_nodup st b1 hnd
  have n2 := upsert_nodup (upsertBatch st b1).store b2 n1
  refine ⟨n1, n2, ?_, ?_⟩
  · apply count_key_one _ _ n2
    have hr1 := upsert_all_present st b1 r h1
    have := upsert_all_present (upsertBatch st b1).store b2 r h2
    exact this
  · intro s
    by_cases h : hasKey st s.naturalKey
    · left
      simp [upsertBatch, h]
    · right
      simp [upsertBatch, h]

/-- Witness for C3: the overlapping chunk batches `[recA, recB]` and
`[recB]` both carry `recB`; after both ingests the store holds exactly one
record with key 2. -/
theorem natural_key_uniqueness_witness :
    (keysOf ([] : List Record)).Nodup ∧ recB ∈ [recA, recB] ∧ recB ∈ [recB] ∧
    ((keysOf (upsertBatch [] [recA, recB]).store).Nodup ∧
     (keysOf (upsertBatch (upsertBatch [] [recA, recB]).store [recB]).store).Nodup ∧
     ((upsertBatch (upsertBatch [] [recA, recB]).store [recB]).store.filter
        (fun s => s.naturalKey == recB.naturalKey)).length = 1 ∧
     (∀ s : Record, upsertBatch [] [s] = { store := [], inserted := 0, skipped := 1 } ∨
       upsertBatch [] [s] = { store := [] ++ [s], inserted := 1, skipped := 0 })) :=
  ⟨by decide, by decide, by decide,
   natural_key_uniqueness [] [recA, recB] [recB] recB (by decide) (by decide) (by decide)⟩

/-- C1: re-ingestion is idempotent: after a successful
`insert_for_nid fetch st n`, repeating the call inserts zero records,
returns the store unchanged, and in particular leaves the collection's
total record count unchanged. -/
theorem insert_for_nid_idempotent (fetch : Int → List Record) (st : List Record) (n : Int) :
    (insert_for_nid fetch (insert_for_nid fetch st n).store n).inserted = 0 ∧
    (insert_for_nid fetch (insert_for_nid fetch st n).store n).store =
      (insert_for_nid fetch st n).store ∧
    (insert_for_nid fetch (insert_for_nid fetch st n).store n).store.length =
      (insert_for_nid fetch st n).store.length := by
  unfold insert_for_nid
  have hall := upsert_all_present st (fetch n)
  have hno := upsert_noop (upsertBatch st (fetch n)).store (fetch n) hall
  rw [hno]
  exact ⟨rfl, rfl, rfl⟩

/-! ## IngestionCoordinator

Modelled from the spec: drives the chunk sequence, fetching each chunk and
upserting the resulting batch; a fetch either yields a batch or ends in
FetchFailed (retries exhausted) or FetchMalformed (unparseable response),
both recorded per chunk without stopping the remaining dispatch.  The
aggregate counts are order-independent, so the bounded worker pool is
modelled by sequential processing of the chunk list.
-/

inductive FetchOutcome where
  | batch (records : List Record)
  | fetchFailed
  | fetchMalformed
deriving DecidableEq

def isFailure : FetchOutcome → Bool
  | .batch _ => false
  | .fetchFailed => true
  | .fetchMalformed => true

def batchOf : FetchOutcome → Option (List Record)
  | .batch rs => some rs
  | .fetchFailed => none
  | .fetchMalformed => none

structure BuildSummary where
  store : List Record
  inserted : Nat
  skipped : Nat
  failedChunks : List (Nat × Nat)
deriving DecidableEq

def insertForChunks (fetch : Nat × Nat → FetchOutcome) (st : List Record) :
    List (Nat × Nat) → BuildSummary
  | [] => { store := st, inserted := 0, skipped := 0, failedChunks := [] }
  | ch :: rest =>
    match fetch ch with
    | .batch rs =>
      let r := upsertBatch st rs
      let s := insertForChunks fetch r.store rest
      { store := s.store, inserted := r.inserted + s.inserted,
        skipped := r.skipped + s.skipped, failedChunks := s.failedChunks }
    | .fetchFailed =>
      let s := insertForChunks fetch st rest
      { store := s.store, inserted := s.inserted, skipped := s.skipped,
        failedChunks := ch :: s.failedChunks }
    | .fetchMalformed =>
      let s := insertForChunks fetch st rest
      { store := s.store, inserted := s.inserted, skipped := s.skipped,
        failedChunks := ch :: s.failedChunks }

theorem insertForChunks_failed (fetch : Nat × Nat → FetchOutcome) (st : List Record)
    (chunks : List (Nat × Nat)) :
    (insertForChunks fetch st chunks).failedChunks =
      chunks.filter (fun ch => isFailure (fetch ch)) := by
  induction chunks generalizing st with
  | nil => rfl
  | cons ch rest ih =>
    cases hf : fetch ch with
    | batch rs =>
      simp only [insertForChunks, hf, ih]
      rw [List.filter_cons_of_neg (by simp [hf, isFailure])]
    | fetchFailed =>
      simp only [insertForChunks, hf, ih]
      rw [List.filter_cons_of_pos (by simp [hf, isFailure])]
    | fetchMalformed =>
      simp only [insertForChunks, hf, ih]
      rw [List.filter_cons_of_pos (by simp [hf, isFailure])]

theorem insertForChunks_counts (fetch : Nat × Nat → FetchOutcome) (st : List Record)
    (chunks : List (Nat × Nat)) :
    (insertForChunks fetch st chunks).inserted + (insertForChunks fetch st chunks).skipped =
      ((chunks.filterMap (fun ch => batchOf (fetch ch))).map List.length).sum := by
  induction chunks generalizing st with
  | nil => rfl
  | cons ch rest ih =>
    cases hf : fetch ch with
    | batch rs =>
      have hrw : (ch :: rest).filterMap (fun c => batchOf (fetch c)) =
          rs :: rest.filterMap (fun c => batchOf (fetch c)) := by
        rw [List.filterMap_cons, hf]
        rfl
      simp only [insertForChunks, hf]
      rw [hrw, List.map_cons, List.sum_cons]
      have h1 := upsert_count st rs
      have h2 := ih (upsertBatch st rs).store
      omega
    | fetchFailed =>
      have hrw : (ch :: rest).filterMap (fun c => batchOf (fetch c)) =
          rest.filterMap (fun c => batchOf (fetch c)) := by
        rw [List.filterMap_cons, hf]
        rfl
      simp only [insertForChunks, hf]
      rw [hrw]
      exact ih st
    | fetchMalformed =>
      have hrw : (ch :: rest).filterMap (fun c => batchOf (fetch c)) =
          rest.filterMap (fun c => batchOf (fetch c)) := by
        rw [List.filterMap_cons, hf]
        rfl
      simp only [insertForChunks, hf]
      rw [hrw]
      exact ih st

theorem insertForChunks_hasKey_mono (fetch : Nat × Nat → FetchOutcome) (st : List Record)
    (chunks : List (Nat × Nat)) (k : Nat) (h : hasKey st k = true) :
    hasKey (insertForChunks fetch st chunks).store k = true := by
  induction chunks generalizing st with
  | nil => exact h
  | cons ch rest ih =>
    cases hf : fetch ch with
    | batch rs =>
      simp only [insertForChunks, hf]
      apply ih
      rw [upsert_store_hasKey, h]
      rfl
    | fetchFailed =>
      simp only [insertForChunks, hf]
      exact ih st h
    | fetchMalformed =>
      simp only [insertForChunks, hf]
      exact ih st h

theorem insertForChunks_present (fetch : Nat × Nat → FetchOutcome) (st : List Record)
    (chunks : List (Nat × Nat)) :
    ∀ ch ∈ chunks, ∀ rs, fetch ch = .batch rs → ∀ r ∈ rs,
      hasKey (insertForChunks fetch st chunks).store r.naturalKey = true := by
  induction chunks generalizing st with
  | nil => intro ch hch; simp at hch
  | cons ch0 rest ih =>
    intro ch hch rs hrs r hr
    rcases List.mem_cons.mp hch with he | he
    · subst he
      cases hf : fetch ch with
      | batch rs2 =>
        rw [hrs] at hf
        injection hf with he2
        subst he2
        simp only [insertForChunks, hrs]
        apply insertForChunks_hasKey_mono
        rw [upsert_store_hasKey]
        have : rs.any (fun s => s.naturalKey == r.naturalKey) = true :=
          List.any_eq_true.mpr ⟨r, hr, by simp⟩
        simp [this]
      | fetchFailed => rw [hrs] at hf; cases hf
      | fetchMalformed => rw [hrs] at hf; cases hf
    · cases hf : fetch ch0 with
      | batch rs2 =>
        simp only [insertForChunks, hf]
        exact ih (upsertBatch st rs2).store ch he rs hrs r hr
      | fetchFailed =>
        simp only [insertForChunks, hf]
        exact ih st ch he rs hrs r hr
      | fetchMalformed =>
        simp only [insertForChunks, hf]
        exact ih st ch he rs hrs r hr

/-- C9: per-chunk failure isolation: the chunks recorded as failed are
exactly those whose fetch ends in FetchFailed or FetchMalformed; the
inserted/skipped totals still account for every record of every successful
chunk (failures never abort siblings); and every record of every
successfully fetched chunk ends up present in the final store, regardless
of which other chunks failed. -/
theorem chunk_failure_isolation (fetch : Nat × Nat → FetchOutcome) (st : List Record)
    (chunks : List (Nat × Nat)) :
    (insertForChunks fetch st chunks).failedChunks =
      chunks.filter (fun ch => isFailure (fetch ch)) ∧
    (insertForChunks fetch st chunks).inserted + (insertForChunks fetch st chunks).skipped =
      ((chunks.filterMap (fun ch => batchOf (fetch ch))).map List.length).sum ∧
    (∀ ch ∈ chunks, ∀ rs, fetch ch = .batch rs → ∀ r ∈ rs,
      hasKey (insertForChunks fetch st chunks).store r.naturalKey = true) :=
  ⟨insertForChunks_failed fetch st chunks, insertForChunks_counts fetch st chunks,
   insertForChunks_present fetch st chunks⟩

/-- A fetch double for the witnesses: the chunk starting at night 7
permanently fails, the others succeed. -/
def demoFetch : Nat × Nat → FetchOutcome := fun ch =>
  if ch.1 = 0 then .batch [recA]
  else if ch.1 = 7 then .fetchFailed
  else .batch [recB]

/-- Witness for C9: with `demoFetch` over three chunks, the middle chunk's
failure is recorded and the record fetched by the last chunk is still in
the final store. -/
theorem chunk_failure_isolation_witness :
    (0, 6) ∈ [(0, 6), (7, 13), (14, 20)] ∧ demoFetch (14, 20) = .batch [recB] ∧
    recB ∈ [recB] ∧
    hasKey (insertForChunks demoFetch [] [(0, 6), (7, 13), (14, 20)]).store
      recB.naturalKey = true :=
  ⟨by decide, by decide, by decide,
   (chunk_failure_isolation demoFetch [] [(0, 6), (7, 13), (14, 20)]).2.2
     (14, 20) (by decide) [recB] (by decide) recB (by decide)⟩

/-! ## build_database

The notebook's `build_database` cell populates the database "with all the
metadata available untill the present moment (which is actually in the
future, since it will be avaluated inside the method call)", in 7-night
chunks.  The call time is passed explicitly here: each invocation sees the
clock at the moment it executes.
-/

/-- Modelled from the spec: the chunk sequence `build_database` dispatches,
from the beginning of the archive (night 0, the 2017-01-01 epoch) up to the
night of the clock time `now` at which the call executes, in 7-night
chunks. -/
def buildDatabaseChunks (now : Int) : List (Nat × Nat) :=
  partition 0 (dateToNight now).toNat 7

/-- Modelled from the spec: `metaDB.build_database`, ingesting every chunk
from the beginning of the archive through the call-time clock `now`. -/
def build_database (fetch : Nat × Nat → FetchOutcome) (st : List Record) (now : Int) :
    BuildSummary :=
  insertForChunks fetch st (buildDatabaseChunks now)

theorem fdiv_mono (a b c : Int) (hc : 0 < c) (h : a ≤ b) : a.fdiv c ≤ b.fdiv c := by
  by_contra hlt
  push_neg at hlt
  have hstep : b.fdiv c + 1 ≤ a.fdiv c := hlt
  have ha := Int.fdiv_add_fmod a c
  have hb := Int.fdiv_add_fmod b c
  have ha0 := Int.fmod_nonneg' a hc
  have hb1 := Int.fmod_lt_of_pos b hc
  have hmul : c * (b.fdiv c + 1) ≤ c * a.fdiv c :=
    mul_le_mul_of_nonneg_left hstep (le_of_lt hc)
  linarith

/-- C7: each `build_database` call covers the nights from the beginning of
the archive (night 0) through the night of the clock at the moment that
call executes; therefore any later repeated invocation covers every night
the earlier one covered, extending coverage to the new current time. -/
theorem build_database_range (now now2 : Int) (h0 : 0 ≤ dateToNight now) (hle : now ≤ now2) :
    (∀ n : Nat, (∃ p ∈ buildDatabaseChunks now, p.1 ≤ n ∧ n ≤ p.2) ↔
      n ≤ (dateToNight now).toNat) ∧
    (∀ n : Nat, (∃ p ∈ buildDatabaseChunks now, p.1 ≤ n ∧ n ≤ p.2) →
      (∃ p ∈ buildDatabaseChunks now2, p.1 ≤ n ∧ n ≤ p.2)) := by
  have hmono : dateToNight now ≤ dateToNight now2 := by
    unfold dateToNight
    have := fdiv_mono now now2 secondsPerNight (by decide) hle
    omega
  have hcov1 := partition_cover 0 (dateToNight now).toNat 7 (by norm_num)
  have hcov2 := partition_cover 0 (dateToNight now2).toNat 7 (by norm_num)
  constructor
  · intro n
    unfold buildDatabaseChunks
    rw [hcov1 n]
    omega
  · intro n hn
    unfold buildDatabaseChunks at hn ⊢
    rw [hcov1 n] at hn
    rw [hcov2 n]
    omega

/-- Witness for C7 at the call times of nights 10 and 20. -/
theorem build_database_range_witness :
    0 ≤ dateToNight (nightToDate 10) ∧ nightToDate 10 ≤ nightToDate 20 ∧
    ((∀ n : Nat, (∃ p ∈ buildDatabaseChunks (nightToDate 10), p.1 ≤ n ∧ n ≤ p.2) ↔
        n ≤ (dateToNight (nightToDate 10)).toNat) ∧
     (∀ n : Nat, (∃ p ∈ buildDatabaseChunks (nightToDate 10), p.1 ≤ n ∧ n ≤ p.2) →
        (∃ p ∈ buildDatabaseChunks (nightToDate 20), p.1 ≤ n ∧ n ≤ p.2))) :=
  ⟨by decide, by decide,
   build_database_range (nightToDate 10) (nightToDate 20) (by decide) (by decide)⟩

/-! ## FederatedQueryEngine

Modelled from the spec: `metaDB.querypos` serves a position query over a
requested time window by querying the local store over the sub-window
already covered by ingestion, fetching the remainder (before and/or after
local coverage) live from the remote archive, unioning by natural key with
the local result first (local wins on conflict), and sorting ascending by
timestamp.  The remote archive is modelled as the list of all archive
records; a remote fetch filters it by footprint containment and window;
`storeConsistent` says the local store holds exactly the archive records
whose timestamps lie in the covered range.
-/

theorem any_beq_iff_mem (l : List Record) (r : Record) :
    l.any (fun s => s == r) = true ↔ r ∈ l := by
  rw [List.any_eq_true]
  constructor
  · rintro ⟨s, hs, hb⟩
    rw [← eq_of_beq hb]
    exact hs
  · intro h
    exact ⟨r, h, by simp⟩

theorem keysOf_cons (r : Record) (l : List Record) :
    keysOf (r :: l) = r.naturalKey :: keysOf l := rfl

def dedupByKey : List Record → List Record
  | [] => []
  | r :: rs => r :: dedupByKey (rs.filter (fun s => !(s.naturalKey == r.naturalKey)))
termination_by l => l.length
decreasing_by
  simp only [List.length_cons]
  exact Nat.lt_succ_of_le (List.length_filter_le _ _)

theorem mem_keysOf_filter_ne (rs : List Record) (kk k : Nat) :
    k ∈ keysOf (rs.filter (fun s => !(s.naturalKey == kk))) ↔ (k ∈ keysOf rs ∧ k ≠ kk) := by
  simp only [keysOf, List.mem_map, List.mem_filter, Bool.not_eq_true']
  constructor
  · rintro ⟨s, ⟨hs, hb⟩, he⟩
    subst he
    refine ⟨⟨s, hs, rfl⟩, ?_⟩
    intro he2
    rw [he2] at hb
    simp at hb
  · rintro ⟨⟨s, hs, he⟩, hne⟩
    subst he
    refine ⟨s, ⟨hs, ?_⟩, rfl⟩
    rw [beq_eq_false_iff_ne]
    exact hne

theorem keysOf_dedupByKey_mem (l : List Record) (k : Nat) :
    k ∈ keysOf (dedupByKey l) ↔ k ∈ keysOf l := by
  induction l using dedupByKey.induct with
  | case1 => rw [dedupByKey]
  | case2 r rs ih =>
    rw [dedupByKey, keysOf_cons, keysOf_cons, List.mem_cons, List.mem_cons, ih,
      mem_keysOf_filter_ne]
    constructor
    · rintro (he | ⟨hm, hne⟩)
      · left
        exact he
      · right
        exact hm
    · intro h
      by_cases he : k = r.naturalKey
      · left
        exact he
      · rcases h with h1 | h2
        · exact absurd h1 he
        · right
          exact ⟨h2, he⟩

theorem dedupByKey_nodup (l : List Record) : (keysOf (dedupByKey l)).Nodup := by
  induction l using dedupByKey.induct with
  | case1 => rw [dedupByKey]; exact List.nodup_nil
  | case2 r rs ih =>
    rw [dedupByKey, keysOf_cons, List.nodup_cons]
    refine ⟨?_, ih⟩
    intro hm
    have h2 := (keysOf_dedupByKey_mem _ _).mp hm
    rw [mem_keysOf_filter_ne] at h2
    exact h2.2 rfl

def insertSortedByTime (r : Record) : List Record → List Record
  | [] => [r]
  | s :: ss => if r.timestamp ≤ s.timestamp then r :: s :: ss else s :: insertSortedByTime r ss

def sortByTime : List Record → List Record
  | [] => []
  | r :: rs => insertSortedByTime r (sortByTime rs)

theorem insertSortedByTime_perm (r : Record) (l : List Record) :
    List.Perm (insertSortedByTime r l) (r :: l) := by
  induction l with
  | nil => exact List.Perm.refl _
  | cons s ss ih =>
    rw [insertSortedByTime]
    by_cases h : r.timestamp ≤ s.timestamp
    · rw [if_pos h]
    · rw [if_neg h]
      exact (List.Perm.cons s ih).trans (List.Perm.swap r s ss)

theorem sortByTime_perm (l : List Record) : List.Perm (sortByTime l) l := by
  induction l with
  | nil => exact List.Perm.refl _
  | cons r rs ih =>
    rw [sortByTime]
    exact (insertSortedByTime_perm r (sortByTime rs)).trans (List.Perm.cons r ih)

theorem insertSortedByTime_pairwise (r : Record) (l : List Record)
    (h : List.Pairwise (fun a b => a.timestamp ≤ b.timestamp) l) :
    List.Pairwise (fun a b => a.timestamp ≤ b.timestamp) (insertSortedByTime r l) := by
  induction l with
  | nil => simp [insertSortedByTime]
  | cons s ss ih =>
    rw [insertSortedByTime]
    rcases List.pairwise_cons.mp h with ⟨hhead, htail⟩
    by_cases hle : r.timestamp ≤ s.timestamp
    · rw [if_pos hle]
      rw [List.pairwise_cons]
      refine ⟨?_, h⟩
      intro t ht
      rcases List.mem_cons.mp ht with he | hm
      · subst he
        exact hle
      · exact le_trans hle (hhead t hm)
    · rw [if_neg hle]
      rw [List.pairwise_cons]
      refine ⟨?_, ih htail⟩
      intro t ht
      have ht2 : t ∈ r :: ss := (insertSortedByTime_perm r ss).mem_iff.mp ht
      rcases List.mem_cons.mp ht2 with he | hm
      · subst he
        omega
      · exact hhead t hm

theorem sortByTime_pairwise (l : List Record) :
    List.Pairwise (fun a b => a.timestamp ≤ b.timestamp) (sortByTime l) := by
  induction l with
  | nil => exact List.Pairwise.nil
  | cons r rs ih =>
    rw [sortByTime]
    exact insertSortedByTime_pairwise r (sortByTime rs) ih

theorem finalize_keys (u : List Record) (k : Nat) :
    k ∈ keysOf (sortByTime (dedupByKey u)) ↔ k ∈ keysOf u := by
  have hperm : List.Perm (keysOf (sortByTime (dedupByKey u))) (keysOf (dedupByKey u)) :=
    (sortByTime_perm (dedupByKey u)).map Record.naturalKey
  rw [hperm.mem_iff]
  exact keysOf_dedupByKey_mem u k

theorem finalize_nodup (u : List Record) : (keysOf (sortByTime (dedupByKey u))).Nodup := by
  have hperm : List.Perm (keysOf (sortByTime (dedupByKey u))) (keysOf (dedupByKey u)) :=
    (sortByTime_perm (dedupByKey u)).map Record.naturalKey
  exact hperm.nodup_iff.mpr (dedupByKey_nodup u)

theorem finalize_sorted (u : List Record) :
    List.Pairwise (fun a b => a.timestamp ≤ b.timestamp) (sortByTime (dedupByKey u)) :=
  sortByTime_pairwise (dedupByKey u)


def containsPos (r : Record) (ra dec : Int) : Bool :=
  decide (r.raMin ≤ ra ∧ ra ≤ r.raMax ∧ r.decMin ≤ dec ∧ dec ≤ r.decMax)

def inWindow (r : Record) (lo hi : Int) : Bool :=
  decide (lo ≤ r.timestamp ∧ r.timestamp ≤ hi)

def fetchByPosition (archive : List Record) (ra dec lo hi : Int) : List Record :=
  archive.filter (fun r => containsPos r ra dec && inWindow r lo hi)

def queryByPositionAndTime (st : List Record) (ra dec lo hi : Int) : List Record :=
  st.filter (fun r => containsPos r ra dec && inWindow r lo hi)

def storeConsistent (archive st : List Record) (covered : Option (Int × Int)) : Bool :=
  match covered with
  | none => true
  | some (clo, chi) =>
      st.all (fun r => archive.any (fun s => s == r) &&
        decide (clo ≤ r.timestamp ∧ r.timestamp ≤ chi)) &&
      archive.all (fun r => !decide (clo ≤ r.timestamp ∧ r.timestamp ≤ chi) ||
        st.any (fun s => s == r))

def querypos_run (archive st : List Record) (covered : Option (Int × Int))
    (ra dec qlo qhi : Int) : List Record :=
  match covered with
  | none => sortByTime (dedupByKey (fetchByPosition archive ra dec qlo qhi))
  | some (clo, chi) =>
      let localRes := queryByPositionAndTime st ra dec (max qlo clo) (min qhi chi)
      let remoteLo :=
        if qlo < clo then fetchByPosition archive ra dec qlo (min qhi (clo - 1)) else []
      let remoteHi :=
        if chi < qhi then fetchByPosition archive ra dec (max qlo (chi + 1)) qhi else []
      sortByTime (dedupByKey (localRes ++ remoteLo ++ remoteHi))

theorem union_covers (archive st : List Record) (clo chi ra dec qlo qhi : Int)
    (hcons : storeConsistent archive st (some (clo, chi)) = true) (r : Record) :
    r ∈ (queryByPositionAndTime st ra dec (max qlo clo) (min qhi chi) ++
      (if qlo < clo then fetchByPosition archive ra dec qlo (min qhi (clo - 1)) else []) ++
      (if chi < qhi then fetchByPosition archive ra dec (max qlo (chi + 1)) qhi else [])) ↔
      r ∈ fetchByPosition archive ra dec qlo qhi := by
  simp only [storeConsistent, Bool.and_eq_true, List.all_eq_true] at hcons
  have hst1 : ∀ s ∈ st, s ∈ archive ∧ clo ≤ s.timestamp ∧ s.timestamp ≤ chi := by
    intro s hs
    have := hcons.1 s hs
    exact ⟨(any_beq_iff_mem archive s).mp this.1, of_decide_eq_true this.2⟩
  have hst2 : ∀ s ∈ archive, clo ≤ s.timestamp → s.timestamp ≤ chi → s ∈ st := by
    intro s hs h1 h2
    have := hcons.2 s hs
    rw [Bool.or_eq_true, Bool.not_eq_true', decide_eq_false_iff_not] at this
    rcases this with hn | hy
    · exact absurd ⟨h1, h2⟩ hn
    · exact (any_beq_iff_mem st s).mp hy
  simp only [queryByPositionAndTime, fetchByPosition, List.mem_append, List.mem_filter,
    Bool.and_eq_true, containsPos, inWindow, decide_eq_true_eq]
  constructor
  · rintro ((⟨hmem, hpos, hwin⟩ | hlo) | hhi)
    · rcases hst1 r hmem with ⟨harch, ht1, ht2⟩
      refine ⟨harch, hpos, ?_⟩
      omega
    · by_cases hc : qlo < clo
      · rw [if_pos hc] at hlo
        simp only [List.mem_filter, Bool.and_eq_true, containsPos, inWindow,
          decide_eq_true_eq] at hlo
        rcases hlo with ⟨harch, hpos, hwin⟩
        refine ⟨harch, hpos, ?_⟩
        omega
      · rw [if_neg hc] at hlo
        simp at hlo
    · by_cases hc : chi < qhi
      · rw [if_pos hc] at hhi
        simp only [List.mem_filter, Bool.and_eq_true, containsPos, inWindow,
          decide_eq_true_eq] at hhi
        rcases hhi with ⟨harch, hpos, hwin⟩
        refine ⟨harch, hpos, ?_⟩
        omega
      · rw [if_neg hc] at hhi
        simp at hhi
  · rintro ⟨harch, hpos, ht1, ht2⟩
    by_cases hin : clo ≤ r.timestamp ∧ r.timestamp ≤ chi
    · have hmem := hst2 r harch hin.1 hin.2
      left
      left
      refine ⟨hmem, hpos, ?_⟩
      omega
    · by_cases hlt : r.timestamp < clo
      · left
        right
        rw [if_pos (by omega)]
        simp only [List.mem_filter, Bool.and_eq_true, containsPos, inWindow,
          decide_eq_true_eq]
        refine ⟨harch, hpos, ?_⟩
        omega
      · right
        rw [if_pos (by omega)]
        simp only [List.mem_filter, Bool.and_eq_true, containsPos, inWindow,
          decide_eq_true_eq]
        refine ⟨harch, hpos, ?_⟩
        omega

/-- C5: federated completeness: whenever the local store is consistent with
the archive over its covered range, `querypos_run` over a requested window
returns exactly the set of natural keys a single pure remote fetch over
that window would return — however much of the window is locally covered —
with no natural key appearing twice, and sorted ascending by timestamp. -/
theorem federated_query_complete (archive st : List Record) (covered : Option (Int × Int))
    (ra dec qlo qhi : Int) (hcons : storeConsistent archive st covered = true) :
    (∀ k, k ∈ keysOf (querypos_run archive st covered ra dec qlo qhi) ↔
      k ∈ keysOf (fetchByPosition archive ra dec qlo qhi)) ∧
    (keysOf (querypos_run archive st covered ra dec qlo qhi)).Nodup ∧
    List.Pairwise (fun a b => a.timestamp ≤ b.timestamp)
      (querypos_run archive st covered ra dec qlo qhi) := by
  rcases covered with _ | ⟨clo, chi⟩
  · refine ⟨?_, finalize_nodup _, finalize_sorted _⟩
    intro k
    exact finalize_keys _ k
  · have hrun : querypos_run archive st (some (clo, chi)) ra dec qlo qhi =
        sortByTime (dedupByKey
          (queryByPositionAndTime st ra dec (max qlo clo) (min qhi chi) ++
            (if qlo < clo then fetchByPosition archive ra dec qlo (min qhi (clo - 1)) else []) ++
            (if chi < qhi then fetchByPosition archive ra dec (max qlo (chi + 1)) qhi else []))) :=
      rfl
    rw [hrun]
    refine ⟨?_, finalize_nodup _, finalize_sorted _⟩
    intro k
    rw [finalize_keys]
    simp only [keysOf, List.mem_map]
    constructor
    · rintro ⟨r, hr, he⟩
      exact ⟨r, (union_covers archive st clo chi ra dec qlo qhi hcons r).mp hr, he⟩
    · rintro ⟨r, hr, he⟩
      exact ⟨r, (union_covers archive st clo chi ra dec qlo qhi hcons r).mpr hr, he⟩


/-- Witness for C5: the archive holds `recA` (timestamp 100) and `recB`
(timestamp 200); the store mirrors the covered range `[150, 250]` and so
holds exactly `recB`; the federated query over the full window `[0, 300]`
at position (5, 5) matches a pure remote fetch over that window. -/
theorem federated_query_complete_witness :
    storeConsistent [recA, recB] [recB] (some (150, 250)) = true ∧
    ((∀ k, k ∈ keysOf (querypos_run [recA, recB] [recB] (some (150, 250)) 5 5 0 300) ↔
        k ∈ keysOf (fetchByPosition [recA, recB] 5 5 0 300)) ∧
     (keysOf (querypos_run [recA, recB] [recB] (some (150, 250)) 5 5 0 300)).Nodup ∧
     List.Pairwise (fun a b => a.timestamp ≤ b.timestamp)
       (querypos_run [recA, recB] [recB] (some (150, 250)) 5 5 0 300)) :=
  ⟨by decide, federated_query_complete [recA, recB] [recB] (some (150, 250)) 5 5 0 300
    (by decide)⟩
